import Mathlib

/-!
Verification development for the `errors` package of github.com/danlock/pkg.

The Go source is shallowly embedded: Go error values become the inductive
type `GoErr`, `slog.Attr` becomes `Attr` (with `slog.Value` modelled by its
string payload, which is all the properties here depend on), Go's `nil`
error becomes `Option GoErr`, and the stdlib traversals `errors.As` /
`errors.Unwrap` over error trees become the functions `findAttrError` /
`findJoined` below.  Runtime-derived data (stack frames, file locations)
enter the embedded functions as explicit parameters, since the pure logic
of the package treats them as opaque inputs.
-/

/-- Embedding of `log/slog.Attr`: a key plus a value.  `slog.Value` is an
opaque payload as far as this package's logic is concerned, so it is
modelled by a `String`. -/
structure Attr where
  key : String
  val : String
deriving DecidableEq, Repr

/-- Embedding of Go error values reachable in this package:
`basic` is a plain stdlib error with no `Unwrap`;
`wrap1` is a `fmt.Errorf` wrapper with a single `%w` (method `Unwrap() error`);
`attrE` is the package's structured node `attrError` / `metaError`
(an inner error plus its own attribute list, method `Unwrap() error`);
`joined` is the stdlib `errors.Join` node (method `Unwrap() []error`). -/
inductive GoErr where
  | basic (msg : String)
  | wrap1 (msg : String) (cause : GoErr)
  | attrE (attrs : List Attr) (inner : GoErr)
  | joined (children : List GoErr)

mutual

/-- `errors.As(err, &merr)` with target `AttrError`/`metaError`: depth-first
search over the error tree (self, then single unwrap, then joined children
in listed order) for the first structured node; returns its attribute list
and its inner error. -/
def findAttrError : GoErr → Option (List Attr × GoErr)
  | .basic _ => none
  | .wrap1 _ c => findAttrError c
  | .attrE a i => some (a, i)
  | .joined cs => findAttrErrorList cs

/-- The child loop of `errors.As` over an `Unwrap() []error` node. -/
def findAttrErrorList : List GoErr → Option (List Attr × GoErr)
  | [] => none
  | c :: cs =>
    match findAttrError c with
    | some r => some r
    | none => findAttrErrorList cs

end

/-- `Into[interface 0x7b Unwrap() []error 0x7d](err)`: the first node of the tree
implementing multi-unwrap.  Only `joined` nodes do, and every such search
stays on the single-unwrap spine until it hits one. -/
def findJoined : GoErr → Option (List GoErr)
  | .basic _ => none
  | .wrap1 _ c => findJoined c
  | .attrE _ i => findJoined i
  | .joined cs => some cs

mutual

/-- All attributes stored anywhere in the error tree, in node order. -/
def allAttrs : GoErr → List Attr
  | .basic _ => []
  | .wrap1 _ c => allAttrs c
  | .attrE a i => a ++ allAttrs i
  | .joined cs => allAttrsList cs

/-- List version of `allAttrs`. -/
def allAttrsList : List GoErr → List Attr
  | [] => []
  | c :: cs => allAttrs c ++ allAttrsList cs

end

/-- An error tree is join-free when no `joined` node occurs in it; such a
tree is a linear unwrap chain. -/
def joinFree : GoErr → Bool
  | .basic _ => true
  | .wrap1 _ c => joinFree c
  | .attrE _ i => joinFree i
  | .joined _ => false

/-- The attributes of the structured nodes on the single-unwrap spine of an
error, from the chain head toward the root, stopping at a joined node. -/
def spineAttrs : GoErr → List Attr
  | .basic _ => []
  | .wrap1 _ c => spineAttrs c
  | .attrE a i => a ++ spineAttrs i
  | .joined _ => []

/-- The result map of the Chain Aggregator.  A Go `map[string]slog.Value`
is modelled as an association list whose keys stay pairwise distinct;
only lookup is observable (Go map iteration order is unspecified). -/
abbrev AttrMap := List (String × String)

/-- Go map assignment `m[k] = v`: replace in place when the key is present,
append otherwise. -/
def mapSet : AttrMap → String → String → AttrMap
  | [], k, v => [(k, v)]
  | p :: rest, k, v => if p.1 = k then (k, v) :: rest else p :: mapSet rest k v

/-- Go map lookup `m[k]`. -/
def mapGet : AttrMap → String → Option String
  | [], _ => none
  | p :: rest, k => if p.1 = k then some p.2 else mapGet rest k

/-- The key set of the map. -/
def mapKeys (m : AttrMap) : List String := m.map Prod.fst

/-- The inner loop `for attr := range merr.Attrs() 0x7b meta[attr.Key] = attr.Value 0x7d`. -/
def insertAttrs (m : AttrMap) (l : List Attr) : AttrMap :=
  l.foldl (fun acc a => mapSet acc a.key a.val) m

/-- The value of the last attribute with the given key in a list, if any. -/
def lastOcc (l : List Attr) (k : String) : Option String :=
  (l.reverse.find? (fun a => a.key = k)).map Attr.val

mutual

theorem findAttrError_size : ∀ (e : GoErr) (a : List Attr) (i : GoErr),
    findAttrError e = some (a, i) → sizeOf i < sizeOf e
  | .basic _, _, _, h => by simp [findAttrError] at h
  | .wrap1 _ c, a, i, h => by
    have ih := findAttrError_size c a i (by simpa [findAttrError] using h)
    simp only [GoErr.wrap1.sizeOf_spec]
    omega
  | .attrE al inn, a, i, h => by
    simp only [findAttrError, Option.some.injEq, Prod.mk.injEq] at h
    obtain ⟨h1, h2⟩ := h
    subst h2
    simp only [GoErr.attrE.sizeOf_spec]
    omega
  | .joined cs, a, i, h => by
    have ih := findAttrErrorList_size cs a i (by simpa [findAttrError] using h)
    simp only [GoErr.joined.sizeOf_spec]
    omega

theorem findAttrErrorList_size : ∀ (cs : List GoErr) (a : List Attr) (i : GoErr),
    findAttrErrorList cs = some (a, i) → sizeOf i < sizeOf cs
  | [], _, _, h => by simp [findAttrErrorList] at h
  | c :: rest, a, i, h => by
    simp only [findAttrErrorList] at h
    cases hc : findAttrError c with
    | some r =>
      rw [hc] at h
      have := findAttrError_size c a i (by rw [hc]; exact (by simpa using h))
      simp only [List.cons.sizeOf_spec]
      omega
    | none =>
      rw [hc] at h
      have := findAttrErrorList_size rest a i (by simpa using h)
      simp only [List.cons.sizeOf_spec]
      omega

end

theorem findJoined_size : ∀ (e : GoErr) (cs : List GoErr),
    findJoined e = some cs → sizeOf cs < sizeOf e
  | .basic _, _, h => by simp [findJoined] at h
  | .wrap1 _ c, cs, h => by
    have := findJoined_size c cs (by simpa [findJoined] using h)
    simp only [GoErr.wrap1.sizeOf_spec]
    omega
  | .attrE a i, cs, h => by
    have := findJoined_size i cs (by simpa [findJoined] using h)
    simp only [GoErr.attrE.sizeOf_spec]
    omega
  | .joined l, cs, h => by
    simp only [findJoined, Option.some.injEq] at h
    subst h
    simp only [GoErr.joined.sizeOf_spec]
    omega

/-- The second loop of `updateAttrMapFromErr`:
`for errors.As(err, &merr) 0x7b meta[attr.Key] = attr.Value ...; err = errors.Unwrap(merr) 0x7d`.
Each iteration finds the next structured node (head toward root), assigns
its attributes into the map, and continues from its inner error. -/
def chainLoop (e : GoErr) (m : AttrMap) : AttrMap :=
  match h : findAttrError e with
  | none => m
  | some (a, i) => chainLoop i (insertAttrs m a)
termination_by sizeOf e
decreasing_by exact findAttrError_size e a i h

mutual

/-- `updateAttrMapFromErr(err, meta)` from the source: first recurse into the
children of the first joined node (if any), in listed order, then run the
`errors.As` chain walk assigning each found node's attributes into the map. -/
def updateAttrMapFromErr (e : GoErr) (m : AttrMap) : AttrMap :=
  chainLoop e
    (match _h : findJoined e with
     | some cs => updateList cs m
     | none => m)
termination_by sizeOf e
decreasing_by exact findJoined_size e cs _h

/-- The `for _, e := range jerr.Unwrap()` loop of `updateAttrMapFromErr`. -/
def updateList (cs : List GoErr) (m : AttrMap) : AttrMap :=
  match cs with
  | [] => m
  | c :: rest => updateList rest (updateAttrMapFromErr c m)
termination_by sizeOf cs

end

/-- `UnwrapAttr(err)`: the Chain Aggregator's flatten.  Returns an empty map
for a nil error (Go: `errors.As(nil, _)` is false and the join probe fails). -/
def UnwrapAttr (e : Option GoErr) : AttrMap :=
  match e with
  | none => []
  | some err => updateAttrMapFromErr err []

/-- Embedding of `context.Context` as seen by this package: either the
background context or a layer created by `context.WithValue(parent, ctxKey, stored)`,
where `stored` is the full accumulated attribute slice. A Go nil context is
`Option GoCtx`'s `none`. -/
inductive GoCtx where
  | background
  | withMeta (parent : GoCtx) (stored : List Attr)

/-- `ctx.Value(ctxKey)` type-asserted to `[]slog.Attr`. -/
def ctxValue : GoCtx → Option (List Attr)
  | .background => none
  | .withMeta _ s => some s

/-- `appendMetaFromCtx(ctx, meta)` from ctx.go: appends the context's stored
attributes after the given ones; the given list is returned unchanged for a
nil context or a context without stored attributes. -/
def appendMetaFromCtx (ctx : Option GoCtx) (meta : List Attr) : List Attr :=
  match ctx with
  | none => meta
  | some c =>
    match ctxValue c with
    | none => meta
    | some parent => meta ++ parent

/-- The Context Carrier's read operation: the pending attributes of a
context (`appendMetaFromCtx` seeded with an empty list). -/
def readCtx (ctx : Option GoCtx) : List Attr := appendMetaFromCtx ctx []

/-- `AddMetaToCtx(ctx, meta...)`: derive a new context layer storing the new
attributes followed by the existing ones; returns nil for a nil context. -/
def AddMetaToCtx (ctx : Option GoCtx) (meta : List Attr) : Option GoCtx :=
  match ctx with
  | none => none
  | some c => some (.withMeta c (appendMetaFromCtx (some c) meta))

/-- A resolved `runtime.Frame`: function name and file:line, as produced by
`callerFunc` (runtime introspection enters the model as a parameter). -/
structure Frame where
  function : String
  file : String
  line : Nat

/-- `fmt.Sprintf("%s:%d", frame.File, frame.Line)`, the location payload
stored under the source key. -/
def frameLoc (f : Frame) : String := f.file ++ ":" ++ toString f.line

/-- Characters after the last slash of a character list. -/
def afterLastSlash (l : List Char) : List Char :=
  l.foldl (fun acc c => if c = '/' then [] else acc ++ [c]) []

/-- The last path component of a function name, `path.Split(f.Function)`. -/
def lastComponent (s : String) : String := String.mk (afterLastSlash s.data)

/-- `prependCaller(text, frame)`: prepend `pkg.func ` to the message unless
the frame has no function. -/
def prependCaller (text : String) (f : Frame) : String :=
  if f.function = "" then text else lastComponent f.function ++ " " ++ text

/-- Whether the head value itself is a structured node: the direct type
assertion `err.(MetaError)` in `maybeWrapMetaError`. -/
def isMetaHead : GoErr → Bool
  | .attrE _ _ => true
  | _ => false

/-- `Into[metaError](err)` / `Into[attrError](err)`: whether the error tree
contains a structured node anywhere (`errors.As` searches the whole tree). -/
def containsAttrE (e : Option GoErr) : Bool :=
  match e with
  | none => false
  | some err => (findAttrError err).isSome

/-- `appendFileToAttr(meta, err, skip, frame)` from the source: append the
caller's file:line attribute unless the source key is disabled or the chain
already holds a structured node.  The runtime frame resolution (`skip`)
enters as the pre-resolved `loc` string. -/
def appendFileToAttr (fileKey : String) (meta : List Attr) (err : Option GoErr)
    (loc : String) : List Attr :=
  if fileKey = "" then meta
  else if containsAttrE err then meta
  else meta ++ [⟨fileKey, loc⟩]

/-- `appendFileToMeta` from meta.go is the same function as
`appendFileToAttr` (the two observed revisions of the file share the body). -/
def appendFileToMeta (fileKey : String) (meta : List Attr) (err : Option GoErr)
    (loc : String) : List Attr :=
  appendFileToAttr fileKey meta err loc

/-- `maybeWrapMetaError(err, meta)`: wrap only when there is metadata or the
head is not already a structured node; otherwise return the error unchanged. -/
def maybeWrapMetaError (err : GoErr) (meta : List Attr) : GoErr :=
  if meta = [] ∧ isMetaHead err then err else .attrE meta err

/-- `WrapMeta(err, meta...)`: WrapMetaCtx without the context. -/
def WrapMeta (fileKey : String) (err : Option GoErr) (meta : List Attr)
    (loc : String) : Option GoErr :=
  match err with
  | none => none
  | some e => some (maybeWrapMetaError e (appendFileToMeta fileKey meta (some e) loc))

/-- `WrapMetaCtx(ctx, err, meta...)`: nil stays nil; otherwise append the
location to the explicit attributes, then the context attributes, and wrap
via `maybeWrapMetaError`. -/
def WrapMetaCtx (fileKey : String) (ctx : Option GoCtx) (err : Option GoErr)
    (meta : List Attr) (loc : String) : Option GoErr :=
  match err with
  | none => none
  | some e =>
    some (maybeWrapMetaError e
      (appendMetaFromCtx ctx (appendFileToMeta fileKey meta (some e) loc)))

/-- `WrapMetaCtxAfter(ctx, errPtr, meta...)`: the deferred wrap.  The outer
`Option` of `errSlot` models the pointer (`none` is a nil `errPtr`); a
`none` result models the panic.  A nil slot value is left untouched. -/
def WrapMetaCtxAfter (fileKey : String) (ctx : Option GoCtx)
    (errSlot : Option (Option GoErr)) (meta : List Attr) (loc : String) :
    Option (Option GoErr) :=
  match errSlot with
  | none => none
  | some none => some none
  | some (some e) =>
    some (some (maybeWrapMetaError e
      (appendMetaFromCtx ctx (appendFileToMeta fileKey meta (some e) loc))))

mutual

/-- The message of an error value: `basic`/`wrap1` carry their text, the
structured node delegates to its inner error, and the stdlib join renders
children newline-separated. -/
def errMsg : GoErr → String
  | .basic m => m
  | .wrap1 m _ => m
  | .attrE _ i => errMsg i
  | .joined cs => String.intercalate "\x0a" (errMsgList cs)

/-- Messages of a list of errors, for the join rendering. -/
def errMsgList : List GoErr → List String
  | [] => []
  | c :: cs => errMsg c :: errMsgList cs

end

/-- `WrapfWithSkip(err, skip, format, a...)`: nil stays nil; otherwise build
`fmt.Errorf(prependCaller(format+" %w", frame), append(a, err)...)` and wrap
it in a structured node carrying the location attribute (only when the chain
has no structured node yet).  The format string is taken with all verbs but
the trailing `%w` already substituted, so the produced text is
`prependCaller(format', frame) ++ errMsg err`. -/
def WrapfWithSkip (err : Option GoErr) (frame : Frame) (format : String)
    (fileKey : String) : Option GoErr :=
  match err with
  | none => none
  | some e =>
    let base := if format = "" then "" else format ++ " "
    let text := prependCaller base frame ++ errMsg e
    some (.attrE (appendFileToAttr fileKey [] (some e) (frameLoc frame))
      (.wrap1 text e))

/-- stdlib `errors.Join(errs...)`: discard nils, return nil when none are
left, otherwise the multi-unwrap node over the non-nil errors in order. -/
def stdJoin (errs : List (Option GoErr)) : Option GoErr :=
  match errs.filterMap id with
  | [] => none
  | l => some (.joined l)

/-- The package's `Join`: the stdlib join wrapped in a structured node with
no attributes of its own (so the slog.LogValuer is reachable). -/
def Join (errs : List (Option GoErr)) : Option GoErr :=
  match stdJoin errs with
  | none => none
  | some e => some (.attrE [] e)

/-- `JoinAfter(errPtr, errFuncs...)`: the outer `Option` of `errSlot` models
the pointer (`none` is a nil `errPtr`, whose result `none` models the
panic).  Each cleanup function is modelled by the value it returns (`none`
in `errFuncs` is a nil function, which is skipped); all non-nil functions
contribute their result, and the slot's previous error is joined last. -/
def JoinAfter (errSlot : Option (Option GoErr))
    (errFuncs : List (Option (Option GoErr))) : Option (Option GoErr) :=
  match errSlot with
  | none => none
  | some prev => some (Join (errFuncs.filterMap id ++ [prev]))

/-- `strings.Cut(s, sep)` restricted to the pair the source uses: the part
after the first occurrence of `sep`, plus the found flag.  File paths are
modelled as character lists. -/
def cutAfter (sep : List Char) : List Char → List Char × Bool
  | [] => if sep.isPrefixOf ([] : List Char) then (([] : List Char), true) else ([], false)
  | c :: rest =>
    if sep.isPrefixOf (c :: rest) then ((c :: rest).drop sep.length, true)
    else cutAfter sep rest

/-- The file-trimming transform of `callerFunc`: when the configured package
package-path marker occurs in the file path with something after it, keep
the marker and everything after it; otherwise leave the path alone.  An
empty marker disables trimming. -/
def callerFuncTrim (marker file : List Char) : List Char :=
  if marker = [] then file
  else
    let after := (cutAfter marker file).1
    if after.length > 0 then marker ++ after else file

/-- The fallback value of the package-path marker (`DefaultPackagePrefix`)
used when build metadata is unavailable. -/
def packageMarkerDefault : String := "github.com/"

/-- Count of attributes under a given key across the whole error tree (used
to state the once-per-chain location property). -/
def keyCount (k : String) (e : Option GoErr) : Nat :=
  match e with
  | none => 0
  | some err => ((allAttrs err).filter (fun a => a.key = k)).length

/-- The concatenated spine attributes of a list of sibling errors. -/
def spineCat : List GoErr → List Attr
  | [] => []
  | c :: cs => spineAttrs c ++ spineCat cs

theorem mapGet_mapSet_self (m : AttrMap) (k v : String) :
    mapGet (mapSet m k v) k = some v := by
  induction m with
  | nil => simp [mapSet, mapGet]
  | cons p rest ih =>
    by_cases h : p.1 = k
    · simp [mapSet, mapGet, h]
    · simp [mapSet, mapGet, h, ih]

theorem mapGet_mapSet_ne (m : AttrMap) (k v k' : String) (h : k' ≠ k) :
    mapGet (mapSet m k v) k' = mapGet m k' := by
  induction m with
  | nil => simp [mapSet, mapGet, Ne.symm h]
  | cons p rest ih =>
    by_cases hp : p.1 = k
    · subst hp
      simp [mapSet, mapGet, Ne.symm h, h]
    · by_cases hp' : p.1 = k'
      · simp [mapSet, mapGet, hp, hp', h]
      · simp [mapSet, mapGet, hp, hp', ih]

theorem mapKeys_mapSet (m : AttrMap) (k v : String) :
    mapKeys (mapSet m k v) = if k ∈ mapKeys m then mapKeys m else mapKeys m ++ [k] := by
  induction m with
  | nil => simp [mapSet, mapKeys]
  | cons p rest ih =>
    by_cases h : p.1 = k
    · simp [mapSet, mapKeys, h]
    · have hne : ¬ k = p.1 := fun hk => h hk.symm
      simp [mapSet, mapKeys, h, hne] at ih ⊢
      rw [ih]
      by_cases hm : k ∈ List.map Prod.fst rest <;> simp [hm, hne]

theorem mapKeys_mapSet_mem (m : AttrMap) (k v k' : String) :
    k' ∈ mapKeys (mapSet m k v) ↔ k' ∈ mapKeys m ∨ k' = k := by
  rw [mapKeys_mapSet]
  by_cases hm : k ∈ mapKeys m
  · simp only [hm, if_true]
    constructor
    · exact Or.inl
    · rintro (h | rfl)
      · exact h
      · exact hm
  · simp [hm]

theorem mapKeys_mapSet_nodup (m : AttrMap) (k v : String)
    (h : (mapKeys m).Nodup) : (mapKeys (mapSet m k v)).Nodup := by
  rw [mapKeys_mapSet]
  by_cases hm : k ∈ mapKeys m
  · simpa [hm]
  · simp [hm, List.nodup_append, h]

theorem lastOcc_append (l1 l2 : List Attr) (k : String) :
    lastOcc (l1 ++ l2) k = (lastOcc l2 k).or (lastOcc l1 k) := by
  unfold lastOcc
  rw [List.reverse_append, List.find?_append]
  cases List.find? (fun a => a.key = k) l2.reverse <;> simp [Option.or]

theorem lastOcc_cons (a : Attr) (l : List Attr) (k : String) :
    lastOcc (a :: l) k = (lastOcc l k).or (if a.key = k then some a.val else none) := by
  have : a :: l = [a] ++ l := rfl
  rw [this, lastOcc_append]
  congr 1
  unfold lastOcc
  by_cases h : a.key = k <;> simp [h]

theorem mapGet_insertAttrs (m : AttrMap) (l : List Attr) (k : String) :
    mapGet (insertAttrs m l) k = (lastOcc l k).or (mapGet m k) := by
  induction l generalizing m with
  | nil => simp [insertAttrs, lastOcc, Option.or]
  | cons a rest ih =>
    have step : insertAttrs m (a :: rest) = insertAttrs (mapSet m a.key a.val) rest := rfl
    rw [step, ih, lastOcc_cons]
    cases hrest : lastOcc rest k with
    | some v => simp [Option.or]
    | none =>
      by_cases hk : a.key = k
      · subst hk
        simp [Option.or, mapGet_mapSet_self]
      · simp [Option.or, hk, mapGet_mapSet_ne m a.key a.val k (fun h => hk h.symm)]

theorem insertAttrs_append (m : AttrMap) (l1 l2 : List Attr) :
    insertAttrs m (l1 ++ l2) = insertAttrs (insertAttrs m l1) l2 := by
  simp [insertAttrs, List.foldl_append]

theorem mapKeys_insertAttrs_mem (m : AttrMap) (l : List Attr) (k : String) :
    k ∈ mapKeys (insertAttrs m l) ↔ k ∈ mapKeys m ∨ k ∈ l.map Attr.key := by
  induction l generalizing m with
  | nil => simp [insertAttrs]
  | cons a rest ih =>
    have step : insertAttrs m (a :: rest) = insertAttrs (mapSet m a.key a.val) rest := rfl
    rw [step, ih]
    rw [mapKeys_mapSet_mem]
    simp
    tauto

theorem mapKeys_insertAttrs_nodup (m : AttrMap) (l : List Attr)
    (h : (mapKeys m).Nodup) : (mapKeys (insertAttrs m l)).Nodup := by
  induction l generalizing m with
  | nil => simpa [insertAttrs]
  | cons a rest ih =>
    have step : insertAttrs m (a :: rest) = insertAttrs (mapSet m a.key a.val) rest := rfl
    rw [step]
    exact ih _ (mapKeys_mapSet_nodup m a.key a.val h)

theorem chainLoop_none (e : GoErr) (m : AttrMap) (hf : findAttrError e = none) :
    chainLoop e m = m := by
  rw [chainLoop]
  split
  · rfl
  · next a i h => rw [hf] at h; exact absurd h (by simp)

theorem chainLoop_some (e : GoErr) (m : AttrMap) (a : List Attr) (i : GoErr)
    (hf : findAttrError e = some (a, i)) :
    chainLoop e m = chainLoop i (insertAttrs m a) := by
  rw [chainLoop]
  split
  · next h => rw [hf] at h; exact absurd h (by simp)
  · next a2 i2 h =>
    rw [hf] at h
    simp at h
    obtain ⟨h1, h2⟩ := h
    subst h1; subst h2; rfl

theorem updateAttrMapFromErr_none (e : GoErr) (m : AttrMap)
    (hj : findJoined e = none) : updateAttrMapFromErr e m = chainLoop e m := by
  rw [updateAttrMapFromErr]
  split
  · next cs h => rw [hj] at h; exact absurd h (by simp)
  · rfl

theorem updateAttrMapFromErr_some (e : GoErr) (m : AttrMap) (cs : List GoErr)
    (hj : findJoined e = some cs) :
    updateAttrMapFromErr e m = chainLoop e (updateList cs m) := by
  rw [updateAttrMapFromErr]
  split
  · next cs2 h =>
    rw [hj] at h
    simp at h
    subst h; rfl
  · next h => rw [hj] at h; exact absurd h (by simp)

theorem updateList_nil (m : AttrMap) : updateList [] m = m := by
  rw [updateList]

theorem updateList_cons (c : GoErr) (rest : List GoErr) (m : AttrMap) :
    updateList (c :: rest) m = updateList rest (updateAttrMapFromErr c m) := by
  rw [updateList]

theorem spineAttrs_of_findAttrError_none : ∀ (e : GoErr),
    findAttrError e = none → spineAttrs e = []
  | .basic _, _ => rfl
  | .wrap1 _ c, h => spineAttrs_of_findAttrError_none c (by simpa [findAttrError] using h)
  | .attrE _ _, h => by simp [findAttrError] at h
  | .joined _, _ => rfl

theorem spineAttrs_of_findAttrError_some : ∀ (e : GoErr) (a : List Attr) (i : GoErr),
    findAttrError e = some (a, i) →
    spineAttrs e = a ++ spineAttrs i ∨ spineAttrs e = []
  | .basic _, _, _, h => by simp [findAttrError] at h
  | .wrap1 _ c, a, i, h => by
    have := spineAttrs_of_findAttrError_some c a i (by simpa [findAttrError] using h)
    simpa [spineAttrs] using this
  | .attrE al inn, a, i, h => by
    simp only [findAttrError, Option.some.injEq, Prod.mk.injEq] at h
    obtain ⟨h1, h2⟩ := h
    subst h1; subst h2
    left; rfl
  | .joined _, _, _, _ => Or.inr rfl

theorem joinFree_findJoined : ∀ (e : GoErr), joinFree e = true → findJoined e = none
  | .basic _, _ => rfl
  | .wrap1 _ c, h => joinFree_findJoined c (by simpa [joinFree] using h)
  | .attrE _ i, h => joinFree_findJoined i (by simpa [joinFree] using h)
  | .joined _, h => by simp [joinFree] at h

theorem joinFree_findAttrError : ∀ (e : GoErr) (a : List Attr) (i : GoErr),
    joinFree e = true → findAttrError e = some (a, i) →
    spineAttrs e = a ++ spineAttrs i ∧ joinFree i = true
  | .basic _, _, _, _, h => by simp [findAttrError] at h
  | .wrap1 _ c, a, i, hj, h => by
    have := joinFree_findAttrError c a i (by simpa [joinFree] using hj)
      (by simpa [findAttrError] using h)
    simpa [spineAttrs] using this
  | .attrE al inn, a, i, hj, h => by
    simp only [findAttrError, Option.some.injEq, Prod.mk.injEq] at h
    obtain ⟨h1, h2⟩ := h
    subst h1; subst h2
    exact ⟨rfl, by simpa [joinFree] using hj⟩
  | .joined _, _, _, hj, _ => by simp [joinFree] at hj

theorem allAttrs_decomp : ∀ (e : GoErr),
    allAttrs e = spineAttrs e ++
      (match findJoined e with
       | some cs => allAttrsList cs
       | none => [])
  | .basic _ => rfl
  | .wrap1 _ c => by
    have := allAttrs_decomp c
    simpa [allAttrs, spineAttrs, findJoined] using this
  | .attrE a i => by
    have := allAttrs_decomp i
    simp [allAttrs, spineAttrs, findJoined, this]
  | .joined cs => by simp [allAttrs, spineAttrs, findJoined]

theorem chainLoop_joinFree : ∀ (e : GoErr) (m : AttrMap), joinFree e = true →
    chainLoop e m = insertAttrs m (spineAttrs e)
  | e, m, hj => by
    cases hf : findAttrError e with
    | none =>
      rw [chainLoop_none e m hf, spineAttrs_of_findAttrError_none e hf]
      simp [insertAttrs]
    | some r =>
      obtain ⟨a, i⟩ := r
      obtain ⟨hsp, hji⟩ := joinFree_findAttrError e a i hj hf
      rw [chainLoop_some e m a i hf, chainLoop_joinFree i (insertAttrs m a) hji,
        hsp, insertAttrs_append]
termination_by e m _ => sizeOf e
decreasing_by exact findAttrError_size e a i hf

theorem updateAttrMapFromErr_joinFree (e : GoErr) (m : AttrMap)
    (hj : joinFree e = true) :
    updateAttrMapFromErr e m = insertAttrs m (spineAttrs e) := by
  rw [updateAttrMapFromErr_none e m (joinFree_findJoined e hj), chainLoop_joinFree e m hj]

theorem chainLoop_keys_mono : ∀ (e : GoErr) (m : AttrMap) (k : String),
    k ∈ mapKeys m → k ∈ mapKeys (chainLoop e m)
  | e, m, k, hk => by
    cases hf : findAttrError e with
    | none => rw [chainLoop_none e m hf]; exact hk
    | some r =>
      obtain ⟨a, i⟩ := r
      rw [chainLoop_some e m a i hf]
      exact chainLoop_keys_mono i _ k ((mapKeys_insertAttrs_mem m a k).2 (Or.inl hk))
termination_by e m k _ => sizeOf e
decreasing_by exact findAttrError_size e a i hf

theorem chainLoop_keys_spine : ∀ (e : GoErr) (m : AttrMap) (k : String),
    k ∈ (spineAttrs e).map Attr.key → k ∈ mapKeys (chainLoop e m)
  | e, m, k, hk => by
    cases hf : findAttrError e with
    | none =>
      rw [spineAttrs_of_findAttrError_none e hf] at hk
      simp at hk
    | some r =>
      obtain ⟨a, i⟩ := r
      rw [chainLoop_some e m a i hf]
      rcases spineAttrs_of_findAttrError_some e a i hf with hsp | hsp
      · rw [hsp, List.map_append] at hk
        rcases List.mem_append.1 hk with hk | hk
        · exact chainLoop_keys_mono i _ k ((mapKeys_insertAttrs_mem m a k).2 (Or.inr hk))
        · exact chainLoop_keys_spine i _ k hk
      · rw [hsp] at hk
        simp at hk
termination_by e m k _ => sizeOf e
decreasing_by exact findAttrError_size e a i hf

theorem chainLoop_keys_nodup : ∀ (e : GoErr) (m : AttrMap),
    (mapKeys m).Nodup → (mapKeys (chainLoop e m)).Nodup
  | e, m, hm => by
    cases hf : findAttrError e with
    | none => rw [chainLoop_none e m hf]; exact hm
    | some r =>
      obtain ⟨a, i⟩ := r
      rw [chainLoop_some e m a i hf]
      exact chainLoop_keys_nodup i _ (mapKeys_insertAttrs_nodup m a hm)
termination_by e m _ => sizeOf e
decreasing_by exact findAttrError_size e a i hf

mutual

theorem update_keys_mono : ∀ (e : GoErr) (m : AttrMap) (k : String),
    k ∈ mapKeys m → k ∈ mapKeys (updateAttrMapFromErr e m)
  | e, m, k, hk => by
    cases hj : findJoined e with
    | none =>
      rw [updateAttrMapFromErr_none e m hj]
      exact chainLoop_keys_mono e m k hk
    | some cs =>
      rw [updateAttrMapFromErr_some e m cs hj]
      exact chainLoop_keys_mono e _ k (updateList_keys_mono cs m k hk)
termination_by e m k _ => sizeOf e
decreasing_by exact findJoined_size e cs hj

theorem updateList_keys_mono : ∀ (cs : List GoErr) (m : AttrMap) (k : String),
    k ∈ mapKeys m → k ∈ mapKeys (updateList cs m)
  | [], m, k, hk => by rw [updateList_nil]; exact hk
  | c :: rest, m, k, hk => by
    rw [updateList_cons]
    exact updateList_keys_mono rest _ k (update_keys_mono c m k hk)
termination_by cs m k _ => sizeOf cs

end

mutual

theorem update_keys_nodup : ∀ (e : GoErr) (m : AttrMap),
    (mapKeys m).Nodup → (mapKeys (updateAttrMapFromErr e m)).Nodup
  | e, m, hm => by
    cases hj : findJoined e with
    | none =>
      rw [updateAttrMapFromErr_none e m hj]
      exact chainLoop_keys_nodup e m hm
    | some cs =>
      rw [updateAttrMapFromErr_some e m cs hj]
      exact chainLoop_keys_nodup e _ (updateList_keys_nodup cs m hm)
termination_by e m _ => sizeOf e
decreasing_by exact findJoined_size e cs hj

theorem updateList_keys_nodup : ∀ (cs : List GoErr) (m : AttrMap),
    (mapKeys m).Nodup → (mapKeys (updateList cs m)).Nodup
  | [], m, hm => by rw [updateList_nil]; exact hm
  | c :: rest, m, hm => by
    rw [updateList_cons]
    exact updateList_keys_nodup rest _ (update_keys_nodup c m hm)
termination_by cs m _ => sizeOf cs

end

mutual

theorem update_keys_cover : ∀ (e : GoErr) (m : AttrMap) (k : String),
    k ∈ (allAttrs e).map Attr.key → k ∈ mapKeys (updateAttrMapFromErr e m)
  | e, m, k, hk => by
    rw [allAttrs_decomp e] at hk
    cases hj : findJoined e with
    | none =>
      rw [updateAttrMapFromErr_none e m hj]
      rw [hj] at hk
      simp only [List.append_nil] at hk
      exact chainLoop_keys_spine e m k hk
    | some cs =>
      rw [updateAttrMapFromErr_some e m cs hj]
      rw [hj] at hk
      rw [List.map_append] at hk
      rcases List.mem_append.1 hk with hk | hk
      · exact chainLoop_keys_spine e _ k hk
      · exact chainLoop_keys_mono e _ k (updateList_keys_cover cs m k hk)
termination_by e m k _ => sizeOf e
decreasing_by exact findJoined_size e cs hj

theorem updateList_keys_cover : ∀ (cs : List GoErr) (m : AttrMap) (k : String),
    k ∈ (allAttrsList cs).map Attr.key → k ∈ mapKeys (updateList cs m)
  | [], _, k, hk => by simp [allAttrsList] at hk
  | c :: rest, m, k, hk => by
    rw [updateList_cons]
    rw [show allAttrsList (c :: rest) = allAttrs c ++ allAttrsList rest from rfl,
      List.map_append] at hk
    rcases List.mem_append.1 hk with hk | hk
    · exact updateList_keys_mono rest _ k (update_keys_cover c m k hk)
    · exact updateList_keys_cover rest _ k hk
termination_by cs m k _ => sizeOf cs

end

theorem findAttrErrorList_eq_first : ∀ (cs : List GoErr),
    findAttrErrorList cs =
      (cs.find? (fun c => (findAttrError c).isSome)).bind findAttrError
  | [] => rfl
  | c :: rest => by
    rw [show findAttrErrorList (c :: rest) =
        (match findAttrError c with
         | some r => some r
         | none => findAttrErrorList rest) from rfl]
    cases hc : findAttrError c with
    | some r => simp [List.find?, hc]
    | none => simp [List.find?, hc, findAttrErrorList_eq_first rest]

theorem chainLoop_joined (cs : List GoErr) (m : AttrMap) :
    chainLoop (.joined cs) m =
      (match cs.find? (fun c => (findAttrError c).isSome) with
       | some cj => chainLoop cj m
       | none => m) := by
  cases hfind : cs.find? (fun c => (findAttrError c).isSome) with
  | none =>
    have hfae : findAttrError (.joined cs) = none := by
      rw [show findAttrError (.joined cs) = findAttrErrorList cs from rfl,
        findAttrErrorList_eq_first, hfind]
      rfl
    rw [chainLoop_none _ m hfae]
  | some cj =>
    have hcj : (findAttrError cj).isSome := by
      simpa using List.find?_some hfind
    obtain ⟨⟨a, i⟩, hfa⟩ : ∃ r, findAttrError cj = some r :=
      Option.isSome_iff_exists.1 hcj
    have hfae : findAttrError (.joined cs) = some (a, i) := by
      rw [show findAttrError (.joined cs) = findAttrErrorList cs from rfl,
        findAttrErrorList_eq_first, hfind]
      simpa using hfa
    rw [chainLoop_some _ m a i hfae]
    exact (chainLoop_some cj m a i hfa).symm

theorem updateList_joinFree : ∀ (cs : List GoErr) (m : AttrMap),
    (∀ c ∈ cs, joinFree c = true) →
    updateList cs m = insertAttrs m (spineCat cs)
  | [], m, _ => by
    rw [updateList_nil]
    simp [spineCat, insertAttrs]
  | c :: rest, m, hcs => by
    rw [updateList_cons,
      updateAttrMapFromErr_joinFree c m (hcs c (List.mem_cons_self c rest)),
      updateList_joinFree rest _ (fun x hx => hcs x (List.mem_cons_of_mem c hx)),
      show spineCat (c :: rest) = spineAttrs c ++ spineCat rest from rfl,
      insertAttrs_append]

theorem lastOcc_spineCat : ∀ (cs : List GoErr) (k : String),
    lastOcc (spineCat cs) k =
      cs.reverse.findSome? (fun c => lastOcc (spineAttrs c) k)
  | [], k => rfl
  | c :: rest, k => by
    rw [show spineCat (c :: rest) = spineAttrs c ++ spineCat rest from rfl,
      lastOcc_append, lastOcc_spineCat rest k]
    rw [show (c :: rest).reverse = rest.reverse ++ [c] from by simp,
      List.findSome?_append]
    congr 1
    cases h : lastOcc (spineAttrs c) k <;> simp [List.findSome?, h]

theorem mapGet_empty (k : String) : mapGet [] k = none := rfl

theorem UnwrapAttr_joinFree_char (e : GoErr) (k : String) (hj : joinFree e = true) :
    mapGet (UnwrapAttr (some e)) k = lastOcc (spineAttrs e) k := by
  rw [show UnwrapAttr (some e) = updateAttrMapFromErr e [] from rfl,
    updateAttrMapFromErr_joinFree e [] hj, mapGet_insertAttrs, mapGet_empty,
    Option.or_none]

theorem UnwrapAttr_joined_char (cs : List GoErr) (k : String)
    (hcs : ∀ c ∈ cs, joinFree c = true) :
    mapGet (UnwrapAttr (some (.attrE [] (.joined cs)))) k =
      (match cs.find? (fun c => (findAttrError c).isSome) with
       | some cj => (lastOcc (spineAttrs cj) k).or
           (cs.reverse.findSome? (fun c => lastOcc (spineAttrs c) k))
       | none => cs.reverse.findSome? (fun c => lastOcc (spineAttrs c) k)) := by
  have hjoin : findJoined (.attrE ([] : List Attr) (.joined cs)) = some cs := rfl
  have hfae : findAttrError (.attrE ([] : List Attr) (.joined cs)) =
      some (([] : List Attr), .joined cs) := rfl
  rw [show UnwrapAttr (some (.attrE [] (.joined cs))) =
      updateAttrMapFromErr (.attrE [] (.joined cs)) [] from rfl,
    updateAttrMapFromErr_some _ [] cs hjoin,
    updateList_joinFree cs [] hcs,
    chainLoop_some _ _ ([] : List Attr) (.joined cs) hfae,
    show insertAttrs (insertAttrs [] (spineCat cs)) [] =
      insertAttrs [] (spineCat cs) from rfl,
    chainLoop_joined]
  have hm1 : mapGet (insertAttrs [] (spineCat cs)) k =
      cs.reverse.findSome? (fun c => lastOcc (spineAttrs c) k) := by
    rw [mapGet_insertAttrs, mapGet_empty, Option.or_none, lastOcc_spineCat]
  cases hfind : cs.find? (fun c => (findAttrError c).isSome) with
  | none => simpa using hm1
  | some cj =>
    have hmem := List.mem_of_find?_eq_some hfind
    have hcj := hcs cj hmem
    simp only []
    rw [chainLoop_joinFree cj _ hcj, mapGet_insertAttrs, hm1]

mutual

theorem allAttrs_nil_of_fae_none : ∀ (e : GoErr),
    findAttrError e = none → allAttrs e = []
  | .basic _, _ => rfl
  | .wrap1 _ c, h => allAttrs_nil_of_fae_none c (by simpa [findAttrError] using h)
  | .attrE _ _, h => by simp [findAttrError] at h
  | .joined cs, h =>
    allAttrsList_nil_of_faeList_none cs (by simpa [findAttrError] using h)

theorem allAttrsList_nil_of_faeList_none : ∀ (cs : List GoErr),
    findAttrErrorList cs = none → allAttrsList cs = []
  | [], _ => rfl
  | c :: rest, h => by
    have hc : findAttrError c = none ∧ findAttrErrorList rest = none := by
      revert h
      rw [show findAttrErrorList (c :: rest) =
          (match findAttrError c with
           | some r => some r
           | none => findAttrErrorList rest) from rfl]
      cases findAttrError c <;> simp
    rw [show allAttrsList (c :: rest) = allAttrs c ++ allAttrsList rest from rfl,
      allAttrs_nil_of_fae_none c hc.1, allAttrsList_nil_of_faeList_none rest hc.2]
    rfl

end

theorem mem_mapKeys_iff_get (m : AttrMap) (k : String) :
    k ∈ mapKeys m ↔ ∃ v, mapGet m k = some v := by
  induction m with
  | nil => simp [mapKeys, mapGet]
  | cons p rest ih =>
    by_cases h : p.1 = k
    · subst h
      simp [mapKeys, mapGet]
    · have hne : ¬ k = p.1 := fun hk => h hk.symm
      have h1 : mapGet (p :: rest) k = mapGet rest k := by simp [mapGet, h]
      have h2 : (k ∈ mapKeys (p :: rest)) ↔ k ∈ mapKeys rest := by
        simp [mapKeys, hne]
      rw [h1, h2, ih]

theorem appendMetaFromCtx_eq (ctx : Option GoCtx) (l : List Attr) :
    appendMetaFromCtx ctx l = l ++ readCtx ctx := by
  cases ctx with
  | none => simp [appendMetaFromCtx, readCtx]
  | some c =>
    cases hc : ctxValue c with
    | none => simp [appendMetaFromCtx, readCtx, hc]
    | some p => simp [appendMetaFromCtx, readCtx, hc]

theorem allAttrs_mem_list : ∀ (cs : List GoErr) (c : GoErr), c ∈ cs →
    ∀ x ∈ allAttrs c, x ∈ allAttrsList cs
  | [], _, h => by simp at h
  | c0 :: rest, c, h => by
    intro x hx
    rw [show allAttrsList (c0 :: rest) = allAttrs c0 ++ allAttrsList rest from rfl]
    rcases List.mem_cons.1 h with h | h
    · subst h
      exact List.mem_append.2 (Or.inl hx)
    · exact List.mem_append.2 (Or.inr (allAttrs_mem_list rest c h x hx))

theorem countKeyIn_zero (k : String) (l : List Attr)
    (h : ∀ a ∈ l, a.key ≠ k) : (l.filter (fun a => a.key = k)).length = 0 := by
  induction l with
  | nil => rfl
  | cons a rest ih =>
    have ha := h a (List.mem_cons_self a rest)
    simp [List.filter, ha, ih (fun x hx => h x (List.mem_cons_of_mem a hx))]

theorem isPrefixOf_append_drop : ∀ (p s : List Char),
    p.isPrefixOf s = true → s = p ++ s.drop p.length
  | [], _, _ => rfl
  | c :: ps, [], h => by simp [List.isPrefixOf] at h
  | c :: ps, x :: xs, h => by
    simp only [List.isPrefixOf, Bool.and_eq_true, beq_iff_eq] at h
    obtain ⟨h1, h2⟩ := h
    subst h1
    have := isPrefixOf_append_drop ps xs h2
    simpa [List.drop] using this

theorem isPrefixOf_self_append : ∀ (p t : List Char), p.isPrefixOf (p ++ t) = true
  | [], t => by simp [List.isPrefixOf]
  | c :: ps, t => by
    simp [List.cons_append, List.isPrefixOf, isPrefixOf_self_append ps t]

theorem cutAfter_nil_eq (sep : List Char) :
    cutAfter sep [] =
      if sep.isPrefixOf ([] : List Char) then (([] : List Char), true)
      else ([], false) := rfl

theorem cutAfter_cons_eq (sep : List Char) (c : Char) (rest : List Char) :
    cutAfter sep (c :: rest) =
      if sep.isPrefixOf (c :: rest) then ((c :: rest).drop sep.length, true)
      else cutAfter sep rest := rfl

theorem cutAfter_found_decomp (s sep : List Char) :
    (cutAfter sep s).2 = true → ∃ b, s = b ++ sep ++ (cutAfter sep s).1 := by
  induction s with
  | nil =>
    intro h
    rw [cutAfter_nil_eq] at h ⊢
    by_cases hp : sep.isPrefixOf ([] : List Char) = true
    · have hsep : sep = [] := by
        cases sep with
        | nil => rfl
        | cons c2 cs =>
          rw [show (c2 :: cs).isPrefixOf ([] : List Char) = false from rfl] at hp
          simp at hp
      subst hsep
      exact ⟨[], rfl⟩
    · rw [if_neg hp] at h
      simp at h
  | cons c rest ih =>
    intro h
    rw [cutAfter_cons_eq] at h ⊢
    by_cases hp : sep.isPrefixOf (c :: rest) = true
    · rw [if_pos hp] at h ⊢
      refine ⟨[], ?_⟩
      have hd := isPrefixOf_append_drop sep (c :: rest) hp
      simpa using hd
    · rw [if_neg hp] at h ⊢
      obtain ⟨b, hb⟩ := ih h
      refine ⟨c :: b, ?_⟩
      conv_lhs => rw [hb]
      simp

theorem cutAfter_notFound (s sep : List Char) :
    (cutAfter sep s).2 = false → ∀ b a, s ≠ b ++ sep ++ a := by
  induction s with
  | nil =>
    intro h b a heq
    have hsplit : b = [] ∧ sep = [] ∧ a = [] := by
      have h2 := heq.symm
      simpa [List.append_eq_nil, and_assoc] using h2
    obtain ⟨hb1, hb2, hb3⟩ := hsplit
    subst hb2
    rw [cutAfter_nil_eq] at h
    simp [List.isPrefixOf] at h
  | cons c rest ih =>
    intro h b a heq
    rw [cutAfter_cons_eq] at h
    by_cases hp : sep.isPrefixOf (c :: rest) = true
    · rw [if_pos hp] at h
      simp at h
    · rw [if_neg hp] at h
      cases b with
      | nil =>
        simp only [List.nil_append] at heq
        rw [heq] at hp
        exact hp (isPrefixOf_self_append sep a)
      | cons b0 bs =>
        simp only [List.cons_append, List.cons.injEq] at heq
        exact ih h bs a heq.2

theorem cutAfter_notFound_nil (s sep : List Char) :
    (cutAfter sep s).2 = false → (cutAfter sep s).1 = [] := by
  induction s with
  | nil =>
    intro h
    rw [cutAfter_nil_eq] at h ⊢
    by_cases hp : sep.isPrefixOf ([] : List Char) = true
    · rw [if_pos hp] at h
      simp at h
    · rw [if_neg hp]
  | cons c rest ih =>
    intro h
    rw [cutAfter_cons_eq] at h ⊢
    by_cases hp : sep.isPrefixOf (c :: rest) = true
    · rw [if_pos hp] at h
      simp at h
    · rw [if_neg hp] at h ⊢
      exact ih h

/-- Claim C1, amended.  The Chain Aggregator's flatten (`UnwrapAttr`) returns
a map with no duplicate keys.  On a join-free unwrap chain, when the same key
occurs at multiple depths, the occurrence closest to the chain ROOT (the
deepest, least recently wrapped node) provides the final value, because the
head-to-root walk assigns into the map and each later write overwrites the
earlier one.  Inside a single joined error with join-free children, the
children are folded in their listed order with a later sibling overwriting an
earlier one, but the subsequent chain walk then re-applies the attributes of
the first sibling that contains a structured node, so keys present in that
first structured sibling end up with its (root-most) values. -/
theorem claim_C1_amended :
    (∀ e : Option GoErr, (mapKeys (UnwrapAttr e)).Nodup)
    ∧ (∀ (e : GoErr) (k : String), joinFree e = true →
        mapGet (UnwrapAttr (some e)) k = lastOcc (spineAttrs e) k)
    ∧ (∀ (cs : List GoErr) (k : String), (∀ c ∈ cs, joinFree c = true) →
        mapGet (UnwrapAttr (some (.attrE [] (.joined cs)))) k =
          (match cs.find? (fun c => (findAttrError c).isSome) with
           | some cj => (lastOcc (spineAttrs cj) k).or
               (cs.reverse.findSome? (fun c => lastOcc (spineAttrs c) k))
           | none => cs.reverse.findSome? (fun c => lastOcc (spineAttrs c) k))) := by
  refine ⟨?_, ?_, ?_⟩
  · intro e
    cases e with
    | none => simp [UnwrapAttr, mapKeys]
    | some err =>
      exact update_keys_nodup err [] (by simp [mapKeys])
  · exact UnwrapAttr_joinFree_char
  · exact UnwrapAttr_joined_char

/-- Claim C1, counterexample to the claim as stated.  In the linear chain
`attrE k=v1 (attrE k=v2 basic)` the head occurrence holds `v1`, yet the
flatten yields `v2` (root wins, not head); in the joined error with siblings
`k=s1` and `k=s2` the later sibling holds `s2`, yet the flatten yields `s1`. -/
theorem claim_C1_cex :
    mapGet (UnwrapAttr (some (.attrE [⟨"k","v1"⟩]
        (.attrE [⟨"k","v2"⟩] (.basic "r"))))) "k" = some "v2"
    ∧ mapGet (UnwrapAttr (some (.attrE [⟨"k","v1"⟩]
        (.attrE [⟨"k","v2"⟩] (.basic "r"))))) "k" ≠ some "v1"
    ∧ mapGet (UnwrapAttr (some (.attrE [] (.joined
        [.attrE [⟨"k","s1"⟩] (.basic "a"), .attrE [⟨"k","s2"⟩] (.basic "b")])))) "k"
        = some "s1"
    ∧ mapGet (UnwrapAttr (some (.attrE [] (.joined
        [.attrE [⟨"k","s1"⟩] (.basic "a"), .attrE [⟨"k","s2"⟩] (.basic "b")])))) "k"
        ≠ some "s2" := by
  have h1 : mapGet (UnwrapAttr (some (.attrE [⟨"k","v1"⟩]
      (.attrE [⟨"k","v2"⟩] (.basic "r"))))) "k" = some "v2" := by
    simp [UnwrapAttr, updateAttrMapFromErr, updateList, chainLoop, findJoined,
      findAttrError, insertAttrs, mapSet, mapGet]
  have h2 : mapGet (UnwrapAttr (some (.attrE [] (.joined
      [.attrE [⟨"k","s1"⟩] (.basic "a"), .attrE [⟨"k","s2"⟩] (.basic "b")])))) "k"
      = some "s1" := by
    simp [UnwrapAttr, updateAttrMapFromErr, updateList, chainLoop, findJoined,
      findAttrError, findAttrErrorList, insertAttrs, mapSet, mapGet]
  refine ⟨h1, ?_, h2, ?_⟩
  · rw [h1]; decide
  · rw [h2]; decide

/-- Claim C1, witness: the amended theorem applied at concrete inputs with
its hypotheses discharged. -/
theorem claim_C1_witness :
    joinFree (.attrE [⟨"a","1"⟩] (.basic "r")) = true
    ∧ mapGet (UnwrapAttr (some (.attrE [⟨"a","1"⟩] (.basic "r")))) "a" =
        lastOcc (spineAttrs (.attrE [⟨"a","1"⟩] (.basic "r"))) "a"
    ∧ mapGet (UnwrapAttr (some (.attrE []
        (.joined [GoErr.attrE [⟨"b","2"⟩] (.basic "s")])))) "b" =
        (match [GoErr.attrE [⟨"b","2"⟩] (.basic "s")].find?
            (fun c => (findAttrError c).isSome) with
         | some cj => (lastOcc (spineAttrs cj) "b").or
             ([GoErr.attrE [⟨"b","2"⟩] (.basic "s")].reverse.findSome?
               (fun c => lastOcc (spineAttrs c) "b"))
         | none => [GoErr.attrE [⟨"b","2"⟩] (.basic "s")].reverse.findSome?
             (fun c => lastOcc (spineAttrs c) "b")) :=
  ⟨by decide,
   claim_C1_amended.2.1 (.attrE [⟨"a","1"⟩] (.basic "r")) "a" (by decide),
   claim_C1_amended.2.2 [GoErr.attrE [⟨"b","2"⟩] (.basic "s")] "b" (by decide)⟩

/-- Claim C2, amended.  For an error whose head is already a structured node,
wrapping through the context-aware operations (`WrapMeta`, `WrapMetaCtx` —
the `maybeWrapMetaError` path) with zero explicit attributes and a nil
context returns the original value itself: same flattened map, same message,
and no wrapper node allocated.  The message-prepending operations
(`Wrap`/`Wrapf`/`WrapfWithSkip`) are excluded: they always allocate a new
node and prepend the caller's function name to the message. -/
theorem claim_C2_amended : ∀ (a : List Attr) (i : GoErr) (fileKey loc : String),
    WrapMetaCtx fileKey none (some (.attrE a i)) [] loc = some (.attrE a i)
    ∧ WrapMeta fileKey (some (.attrE a i)) [] loc = some (.attrE a i) := by
  intro a i fileKey loc
  have hfile : appendFileToMeta fileKey [] (some (.attrE a i)) loc = [] := by
    by_cases h : fileKey = "" <;>
      simp [appendFileToMeta, appendFileToAttr, containsAttrE, findAttrError, h]
  constructor
  · simp [WrapMetaCtx, hfile, appendMetaFromCtx, maybeWrapMetaError, isMetaHead]
  · simp [WrapMeta, hfile, maybeWrapMetaError, isMetaHead]

/-- Claim C2, counterexample to the claim as stated.  `Wrap` (that is,
`WrapfWithSkip` with an empty format) on an error headed by a structured node
allocates a fresh wrapper and prepends the caller's function name, so the
result is not behaviorally identical to the original: the message changes
from `boom` to `pkg.f boom`. -/
theorem claim_C2_cex :
    WrapfWithSkip (some (.attrE [⟨"k","v"⟩] (.basic "boom")))
        ⟨"pkg.f", "f.go", 3⟩ "" "source"
      = some (.attrE [] (.wrap1 "pkg.f boom" (.attrE [⟨"k","v"⟩] (.basic "boom"))))
    ∧ errMsg ((WrapfWithSkip (some (.attrE [⟨"k","v"⟩] (.basic "boom")))
        ⟨"pkg.f", "f.go", 3⟩ "" "source").getD (.basic ""))
      ≠ errMsg (.attrE [⟨"k","v"⟩] (.basic "boom"))
    ∧ WrapfWithSkip (some (.attrE [⟨"k","v"⟩] (.basic "boom")))
        ⟨"pkg.f", "f.go", 3⟩ "" "source"
      ≠ some (.attrE [⟨"k","v"⟩] (.basic "boom")) := by
  refine ⟨?_, by decide, ?_⟩
  · simp [WrapfWithSkip, appendFileToAttr, containsAttrE, findAttrError,
      prependCaller, lastComponent, errMsg, frameLoc, afterLastSlash]
  intro h
  have h2 := congrArg (fun o => errMsg (o.getD (.basic ""))) h
  revert h2
  decide

/-- Claim C3, amended.  `WrapMetaCtx` builds the new node's attribute list in
the order: explicit attributes first, then the caller-location attribute
(when one is attached at all), then the context-carried attributes last —
the location sits between the explicit and the context attributes, not at
the end. -/
theorem claim_C3_amended : ∀ (fileKey : String) (ctx : Option GoCtx) (e : GoErr)
    (meta : List Attr) (loc : String),
    appendMetaFromCtx ctx (appendFileToMeta fileKey meta (some e) loc) =
      meta ++ (if fileKey = "" ∨ containsAttrE (some e) = true then ([] : List Attr)
               else [⟨fileKey, loc⟩]) ++ readCtx ctx
    ∧ WrapMetaCtx fileKey ctx (some e) meta loc =
        some (maybeWrapMetaError e
          (meta ++ (if fileKey = "" ∨ containsAttrE (some e) = true then ([] : List Attr)
                    else [⟨fileKey, loc⟩]) ++ readCtx ctx)) := by
  intro fileKey ctx e meta loc
  have hfile : appendFileToMeta fileKey meta (some e) loc =
      meta ++ (if fileKey = "" ∨ containsAttrE (some e) = true then ([] : List Attr)
               else [⟨fileKey, loc⟩]) := by
    by_cases h1 : fileKey = ""
    · simp [appendFileToMeta, appendFileToAttr, h1]
    · by_cases h2 : containsAttrE (some e) = true <;>
        simp [appendFileToMeta, appendFileToAttr, h1, h2]
  have hmain : appendMetaFromCtx ctx (appendFileToMeta fileKey meta (some e) loc) =
      meta ++ (if fileKey = "" ∨ containsAttrE (some e) = true then ([] : List Attr)
               else [⟨fileKey, loc⟩]) ++ readCtx ctx := by
    rw [appendMetaFromCtx_eq, hfile]
  exact ⟨hmain, by simp [WrapMetaCtx, hmain]⟩

/-- Claim C3, counterexample to the claim as stated.  With explicit attr
`a=2`, context attr `c=1`, location `L` and a plain cause, the built list is
`[a, source, c]` — location in the middle — not the claimed
`[a, c, source]` with location last. -/
theorem claim_C3_cex :
    appendMetaFromCtx (some (.withMeta .background [⟨"c","1"⟩]))
        (appendFileToMeta "source" [⟨"a","2"⟩] (some (.basic "x")) "L")
      = [⟨"a","2"⟩, ⟨"source","L"⟩, ⟨"c","1"⟩]
    ∧ appendMetaFromCtx (some (.withMeta .background [⟨"c","1"⟩]))
        (appendFileToMeta "source" [⟨"a","2"⟩] (some (.basic "x")) "L")
      ≠ [⟨"a","2"⟩, ⟨"c","1"⟩, ⟨"source","L"⟩] := by
  refine ⟨by decide, by decide⟩

/-- Claim C4.  The caller-location attribute is recorded once per chain: when
the source key is enabled, `appendFileToMeta` attaches the location exactly
when the error being wrapped does not already contain a structured node, and
consequently `WrapMetaCtx` yields a chain whose location-key count is 1 on a
first wrap and is left unchanged by every in-subsystem re-wrap (so the
original failure site is never clobbered), provided the caller's explicit
and context attributes do not themselves use the source key. -/
theorem claim_C4 : ∀ (fileKey : String) (ctx : Option GoCtx) (e : GoErr)
    (meta : List Attr) (loc : String),
    fileKey ≠ "" →
    (∀ a ∈ meta, a.key ≠ fileKey) →
    (∀ a ∈ readCtx ctx, a.key ≠ fileKey) →
    (containsAttrE (some e) = true →
      appendFileToMeta fileKey meta (some e) loc = meta)
    ∧ (containsAttrE (some e) = false →
      appendFileToMeta fileKey meta (some e) loc = meta ++ [⟨fileKey, loc⟩])
    ∧ keyCount fileKey (WrapMetaCtx fileKey ctx (some e) meta loc) =
        (if containsAttrE (some e) = true then keyCount fileKey (some e) else 1) := by
  intro fileKey ctx e meta loc hfk hmeta hctx
  refine ⟨?_, ?_, ?_⟩
  · intro hc
    simp [appendFileToMeta, appendFileToAttr, hfk, hc]
  · intro hc
    simp [appendFileToMeta, appendFileToAttr, hfk, hc]
  · by_cases hc : containsAttrE (some e) = true
    · rw [if_pos hc]
      have hfile : appendFileToMeta fileKey meta (some e) loc = meta := by
        simp [appendFileToMeta, appendFileToAttr, hfk, hc]
      have hmeta2 : appendMetaFromCtx ctx (appendFileToMeta fileKey meta (some e) loc) =
          meta ++ readCtx ctx := by
        rw [appendMetaFromCtx_eq, hfile]
      have hm0 : (meta.filter (fun a => a.key = fileKey)).length = 0 :=
        countKeyIn_zero fileKey meta hmeta
      have hc0 : ((readCtx ctx).filter (fun a => a.key = fileKey)).length = 0 :=
        countKeyIn_zero fileKey (readCtx ctx) hctx
      rw [show WrapMetaCtx fileKey ctx (some e) meta loc =
          some (maybeWrapMetaError e
            (appendMetaFromCtx ctx (appendFileToMeta fileKey meta (some e) loc))) from rfl,
        hmeta2]
      by_cases hpass : meta ++ readCtx ctx = [] ∧ isMetaHead e = true
      · have : maybeWrapMetaError e (meta ++ readCtx ctx) = e := by
          unfold maybeWrapMetaError
          rw [if_pos hpass]
        rw [this]
      · have hwrap : maybeWrapMetaError e (meta ++ readCtx ctx) =
            .attrE (meta ++ readCtx ctx) e := by
          unfold maybeWrapMetaError
          rw [if_neg hpass]
        rw [hwrap]
        simp [keyCount, allAttrs, List.filter_append, hm0, hc0]
    · have hcfalse : containsAttrE (some e) = false := by
        revert hc
        cases containsAttrE (some e) <;> simp
      rw [if_neg hc]
      have hfile : appendFileToMeta fileKey meta (some e) loc =
          meta ++ [⟨fileKey, loc⟩] := by
        simp [appendFileToMeta, appendFileToAttr, hfk, hcfalse]
      have hmeta2 : appendMetaFromCtx ctx (appendFileToMeta fileKey meta (some e) loc) =
          (meta ++ [⟨fileKey, loc⟩]) ++ readCtx ctx := by
        rw [appendMetaFromCtx_eq, hfile]
      have hallnil : allAttrs e = [] := by
        apply allAttrs_nil_of_fae_none
        revert hcfalse
        simp [containsAttrE]
      have hnonempty : ¬ ((meta ++ [⟨fileKey, loc⟩]) ++ readCtx ctx = [] ∧
          isMetaHead e = true) := by
        intro hcon
        have h1 := hcon.1
        simp at h1
      rw [show WrapMetaCtx fileKey ctx (some e) meta loc =
          some (maybeWrapMetaError e
            (appendMetaFromCtx ctx (appendFileToMeta fileKey meta (some e) loc))) from rfl,
        hmeta2]
      have hwrap : maybeWrapMetaError e ((meta ++ [⟨fileKey, loc⟩]) ++ readCtx ctx) =
          .attrE ((meta ++ [⟨fileKey, loc⟩]) ++ readCtx ctx) e := by
        unfold maybeWrapMetaError
        rw [if_neg hnonempty]
      rw [hwrap]
      have hm0 : (meta.filter (fun a => a.key = fileKey)).length = 0 :=
        countKeyIn_zero fileKey meta hmeta
      have hc0 : ((readCtx ctx).filter (fun a => a.key = fileKey)).length = 0 :=
        countKeyIn_zero fileKey (readCtx ctx) hctx
      simp [keyCount, allAttrs, List.filter_append, hallnil, hm0, hc0]

/-- Claim C4, witness: the theorem applied to a first wrap of a plain error
with the hypotheses discharged. -/
theorem claim_C4_witness :
    keyCount "source" (WrapMetaCtx "source" none (some (.basic "x")) [] "L") =
      (if containsAttrE (some (.basic "x")) = true
       then keyCount "source" (some (.basic "x")) else 1) :=
  (claim_C4 "source" none (.basic "x") [] "L" (by decide) (by decide) (by decide)).2.2

/-- Claim C5, amended.  `JoinAfter` with a non-nil slot joins the results of
ALL non-nil cleanup functions (no short-circuit: every result is in the join
regardless of earlier failures) together with the slot's previous error, and
every attribute KEY of every joined error appears in the flattened map of
the final slot value.  Attribute values are not all preserved: when the same
key occurs with different values among the joined errors, the map keeps only
one of them (see the counterexample). -/
theorem claim_C5_amended : ∀ (prev : Option GoErr)
    (errFuncs : List (Option (Option GoErr))),
    JoinAfter (some prev) errFuncs = some (Join (errFuncs.filterMap id ++ [prev]))
    ∧ (∀ (e : GoErr), some e ∈ errFuncs.filterMap id ++ [prev] →
        ∀ (k : String), k ∈ (allAttrs e).map Attr.key →
          k ∈ mapKeys (UnwrapAttr (Join (errFuncs.filterMap id ++ [prev])))) := by
  intro prev errFuncs
  refine ⟨rfl, ?_⟩
  intro e he k hk
  have hel : e ∈ (errFuncs.filterMap id ++ [prev]).filterMap id :=
    List.mem_filterMap.2 ⟨some e, he, rfl⟩
  cases hl : (errFuncs.filterMap id ++ [prev]).filterMap id with
  | nil => rw [hl] at hel; simp at hel
  | cons x xs =>
    have hJoin : Join (errFuncs.filterMap id ++ [prev]) =
        some (.attrE [] (.joined (x :: xs))) := by
      simp [Join, stdJoin, hl]
    rw [hJoin]
    rw [show UnwrapAttr (some (.attrE [] (.joined (x :: xs)))) =
        updateAttrMapFromErr (.attrE [] (.joined (x :: xs))) [] from rfl]
    apply update_keys_cover
    rw [hl] at hel
    obtain ⟨a, ha, hak⟩ := List.mem_map.1 hk
    refine List.mem_map.2 ⟨a, ?_, hak⟩
    rw [show allAttrs (.attrE [] (.joined (x :: xs))) =
        allAttrsList (x :: xs) from rfl]
    exact allAttrs_mem_list (x :: xs) e hel a ha

/-- Claim C5, counterexample to the claim as stated.  Two cleanup functions
return errors with the same key `k` and different values `1` and `2`; the
final slot joins both, but the flattened map holds `k=1`, so the attribute
`k=2` of the second returned error is not contained in it. -/
theorem claim_C5_cex :
    JoinAfter (some none)
        [some (some (.attrE [⟨"k","1"⟩] (.basic "a"))),
         some (some (.attrE [⟨"k","2"⟩] (.basic "b")))]
      = some (some (.attrE [] (.joined
          [.attrE [⟨"k","1"⟩] (.basic "a"), .attrE [⟨"k","2"⟩] (.basic "b")])))
    ∧ mapGet (UnwrapAttr (some (.attrE [] (.joined
        [.attrE [⟨"k","1"⟩] (.basic "a"), .attrE [⟨"k","2"⟩] (.basic "b")])))) "k"
      = some "1"
    ∧ mapGet (UnwrapAttr (some (.attrE [] (.joined
        [.attrE [⟨"k","1"⟩] (.basic "a"), .attrE [⟨"k","2"⟩] (.basic "b")])))) "k"
      ≠ some "2" := by
  have h2 : mapGet (UnwrapAttr (some (.attrE [] (.joined
      [.attrE [⟨"k","1"⟩] (.basic "a"), .attrE [⟨"k","2"⟩] (.basic "b")])))) "k"
      = some "1" := by
    simp [UnwrapAttr, updateAttrMapFromErr, updateList, chainLoop, findJoined,
      findAttrError, findAttrErrorList, insertAttrs, mapSet, mapGet]
  refine ⟨?_, h2, ?_⟩
  · simp [JoinAfter, Join, stdJoin]
  · rw [h2]; decide

/-- Claim C5, witness: the amended theorem applied with one cleanup function,
its membership hypotheses discharged. -/
theorem claim_C5_witness :
    "w" ∈ mapKeys (UnwrapAttr (Join
      ([some (some (.attrE [⟨"w","1"⟩] (.basic "a")))].filterMap id ++ [none]))) :=
  (claim_C5_amended none [some (some (.attrE [⟨"w","1"⟩] (.basic "a")))]).2
    (.attrE [⟨"w","1"⟩] (.basic "a")) (by simp) "w" (by simp [allAttrs])

/-- Claim C6.  Wrapping a nil error yields nil for every wrap operation:
`WrapfWithSkip` (hence `Wrap`/`Wrapf`), `WrapMeta`, and `WrapMetaCtx`
regardless of attributes and context; no node is ever synthesized from a
nil error. -/
theorem claim_C6 : ∀ (frame : Frame) (format fileKey : String)
    (meta : List Attr) (loc : String) (ctx : Option GoCtx),
    WrapfWithSkip none frame format fileKey = none
    ∧ WrapMeta fileKey none meta loc = none
    ∧ WrapMetaCtx fileKey ctx none meta loc = none :=
  fun _ _ _ _ _ _ => ⟨rfl, rfl, rfl⟩

/-- Claim C7.  `AddMetaToCtx` on a non-nil context returns a new derived
layer whose pending attribute sequence is exactly the new attributes
followed by the context's existing pending attributes, with the parent
context embedded unchanged (the model is pure, so no mutation is possible
and the parent value is preserved inside the new layer). -/
theorem claim_C7 : ∀ (c : GoCtx) (meta : List Attr),
    AddMetaToCtx (some c) meta = some (.withMeta c (meta ++ readCtx (some c)))
    ∧ readCtx (AddMetaToCtx (some c) meta) = meta ++ readCtx (some c) := by
  intro c meta
  have h := appendMetaFromCtx_eq (some c) meta
  refine ⟨?_, ?_⟩
  · rw [show AddMetaToCtx (some c) meta =
      some (.withMeta c (appendMetaFromCtx (some c) meta)) from rfl, h]
  · rw [show AddMetaToCtx (some c) meta =
      some (.withMeta c (appendMetaFromCtx (some c) meta)) from rfl,
      show readCtx (some (.withMeta c (appendMetaFromCtx (some c) meta))) =
        appendMetaFromCtx (some c) meta from by
          simp [readCtx, appendMetaFromCtx, ctxValue], h]

/-- Claim C9.  The deferred-wrap helpers panic exactly when the error-slot
pointer is nil: modelling the pointer as the outer `Option` and the panic as
the `none` result, `WrapMetaCtxAfter` and `JoinAfter` return `none` if and
only if the slot argument is `none`; with a non-nil slot they always
produce a result. -/
theorem claim_C9 : ∀ (fileKey : String) (ctx : Option GoCtx)
    (slot : Option (Option GoErr)) (meta : List Attr) (loc : String)
    (errFuncs : List (Option (Option GoErr))),
    (WrapMetaCtxAfter fileKey ctx slot meta loc = none ↔ slot = none)
    ∧ (JoinAfter slot errFuncs = none ↔ slot = none) := by
  intro fileKey ctx slot meta loc errFuncs
  cases slot with
  | none => simp [WrapMetaCtxAfter, JoinAfter]
  | some s => cases s <;> simp [WrapMetaCtxAfter, JoinAfter]

/-- Claim C10.  Attaching attributes to a nil context returns nil without
creating a carrier layer, and reading pending attributes from a nil context
(including one produced by attaching to nil) yields the empty sequence; in
this total model no panic is possible. -/
theorem claim_C10 : ∀ (meta : List Attr),
    AddMetaToCtx none meta = none
    ∧ readCtx (AddMetaToCtx none meta) = []
    ∧ readCtx none = [] :=
  fun _ => ⟨rfl, rfl, rfl⟩

/-- Claim C8, amended.  The Frame Resolver trims the file path by removing
everything up to but NOT including the configured package marker: when the
marker occurs in the path with a nonempty remainder, the result is the
marker followed by that remainder (the marker itself is kept); when the
marker never occurs — and also when it occurs only as a suffix with nothing
after it — the file is returned completely untrimmed, and a nonempty file
is never silently emptied. -/
theorem claim_C8_amended : ∀ (marker file : List Char),
    ((cutAfter marker file).2 = true ↔ ∃ b a, file = b ++ marker ++ a)
    ∧ ((cutAfter marker file).2 = false → callerFuncTrim marker file = file)
    ∧ (callerFuncTrim marker file = file ∨
        ∃ b a, a ≠ [] ∧ file = b ++ marker ++ a ∧
          callerFuncTrim marker file = marker ++ a)
    ∧ (file ≠ [] → callerFuncTrim marker file ≠ []) := by
  intro marker file
  have part1 : (cutAfter marker file).2 = true ↔ ∃ b a, file = b ++ marker ++ a := by
    constructor
    · intro h
      obtain ⟨b, hb⟩ := cutAfter_found_decomp file marker h
      exact ⟨b, (cutAfter marker file).1, hb⟩
    · rintro ⟨b, a, hab⟩
      cases hf : (cutAfter marker file).2 with
      | true => rfl
      | false => exact absurd hab (cutAfter_notFound file marker hf b a)
  have part2 : (cutAfter marker file).2 = false → callerFuncTrim marker file = file := by
    intro h
    by_cases hm : marker = []
    · simp [callerFuncTrim, hm]
    · have hnil := cutAfter_notFound_nil file marker h
      simp [callerFuncTrim, hm, hnil]
  have part3 : callerFuncTrim marker file = file ∨
      ∃ b a, a ≠ [] ∧ file = b ++ marker ++ a ∧
        callerFuncTrim marker file = marker ++ a := by
    by_cases hm : marker = []
    · left; simp [callerFuncTrim, hm]
    · cases hf : (cutAfter marker file).2 with
      | false => left; exact part2 hf
      | true =>
        cases hlen : (cutAfter marker file).1 with
        | nil =>
          left
          simp [callerFuncTrim, hm, hlen]
        | cons c0 cafter =>
          right
          obtain ⟨b, hb⟩ := cutAfter_found_decomp file marker hf
          rw [hlen] at hb
          refine ⟨b, c0 :: cafter, by simp, hb, ?_⟩
          simp [callerFuncTrim, hm, hlen]
  refine ⟨part1, part2, part3, ?_⟩
  intro hne
  rcases part3 with h | ⟨b, a, ha, hab, htrim⟩
  · rw [h]; exact hne
  · rw [htrim]
    intro hcon
    have := List.append_eq_nil.1 hcon
    exact ha this.2

/-- Claim C8, counterexample to the claim as stated.  With marker `g/` and
file `ag/x`, the trimmed path is `g/x` — the marker is kept — not the `x`
that removing everything up to AND including the marker would produce. -/
theorem claim_C8_cex :
    callerFuncTrim ("g/".toList) ("ag/x".toList) = ("g/x".toList)
    ∧ callerFuncTrim ("g/".toList) ("ag/x".toList) ≠ ("x".toList) := by
  refine ⟨by decide, by decide⟩

/-- Claim C8, witness: the amended theorem applied to a file that does not
contain the marker, hypotheses discharged. -/
theorem claim_C8_witness :
    callerFuncTrim ("g/".toList) ("ab".toList) = ("ab".toList)
    ∧ callerFuncTrim ("g/".toList) ("ab".toList) ≠ [] :=
  ⟨(claim_C8_amended ("g/".toList) ("ab".toList)).2.1 (by decide),
   (claim_C8_amended ("g/".toList) ("ab".toList)).2.2.2 (by decide)⟩
